import Mathlib

/-!
# Verification of the `allwords` word generator

A shallow embedding of `src/lib.rs` from the `allwords` crate: an `Alphabet`
built from the distinct characters of a source string, and a `WordsIterator`
that enumerates all words over that alphabet in odometer order.

Words are modelled as `List Char` (Rust iterates `String` by `char`, i.e. by
Unicode scalar value, which matches Lean's `Char`).  The Rust `HashMap` is
modelled as an association list with unique keys in insertion order: the code
only uses `insert`, `get`, `contains_key`, `entry(..).or_insert` and
`keys().len()`, all of which the association list reproduces faithfully.
`String::len` in Rust is the UTF-8 byte length, so the embedding measures
`byteLen` explicitly instead of counting characters.
-/

/-- The byte length of one character when UTF-8 encoded, as computed by
Rust's `char::len_utf8`. -/
def charBytes (c : Char) : Nat :=
  if c.val < 0x80 then 1
  else if c.val < 0x800 then 2
  else if c.val < 0x10000 then 3
  else 4

/-- The UTF-8 byte length of a word, Rust's `String::len`. -/
def byteLen (w : List Char) : Nat := (w.map charBytes).sum

/-- Lookup in the association-list model of `HashMap<char, Option<char>>`:
Rust's `HashMap::get`, returning `some v` when the key is present. -/
def mapGet (m : List (Char × Option Char)) (c : Char) : Option (Option Char) :=
  (m.find? (fun p => p.1 == c)).map (fun p => p.2)

/-- Rust's `HashMap::contains_key`. -/
def mapContains (m : List (Char × Option Char)) (c : Char) : Bool :=
  (mapGet m c).isSome

/-- Rust's `HashMap::insert`: replace the value if the key is present,
otherwise add the binding. -/
def mapInsert (m : List (Char × Option Char)) (c : Char) (v : Option Char) :
    List (Char × Option Char) :=
  if mapContains m c then m.map (fun p => if p.1 == c then (p.1, v) else p)
  else m ++ [(c, v)]

/-- The keys of the association-list map, in order. -/
def keysOf (m : List (Char × Option Char)) : List Char := m.map Prod.fst

/-- `Alphabet` from `src/lib.rs`: the successor map over characters and the
first character. -/
structure Alphabet where
  next_char_map : List (Char × Option Char)
  first_char : Char
deriving DecidableEq

/-- `WordsIterator` from `src/lib.rs`: the alphabet, the optional maximum
length and the pending word returned by the next pull. -/
structure WordsIterator where
  alphabet : Alphabet
  max_len : Option Nat
  next_item : List Char
deriving DecidableEq

/-- The loop state of `Alphabet::from_chars_in_str`: the successor map under
construction, the first character seen, and the previous distinct character. -/
structure BuildState where
  next_char_map : List (Char × Option Char)
  first_char : Option Char
  previous_char : Option Char
deriving DecidableEq

/-- One iteration of the `for c in alphabet_str.chars()` loop of
`Alphabet::from_chars_in_str` (src/lib.rs lines 111-122). -/
def buildStep (st : BuildState) (c : Char) : BuildState :=
  if st.first_char.isNone then
    { st with first_char := some c, previous_char := some c }
  else if st.previous_char.isSome && (st.previous_char.get! != c)
      && !(mapContains st.next_char_map c) then
    { next_char_map := mapInsert st.next_char_map st.previous_char.get! (some c),
      first_char := st.first_char,
      previous_char := some c }
  else st

/-- The state after scanning the whole source string. -/
def scanState (s : List Char) : BuildState :=
  s.foldl buildStep ⟨[], none, none⟩

/-- The successor map after the post-loop
`next_char_map.entry(pc).or_insert(None)` (src/lib.rs lines 124-126). -/
def finalMap (s : List Char) : List (Char × Option Char) :=
  match (scanState s).previous_char with
  | some pc =>
    if mapContains (scanState s).next_char_map pc then (scanState s).next_char_map
    else (scanState s).next_char_map ++ [(pc, none)]
  | none => (scanState s).next_char_map

/-- `Alphabet::from_chars_in_str` (src/lib.rs lines 105-138).  The final
`first_char.unwrap()` is modelled by `Option.get!`; it is only reached when
the map has at least 2 keys, which forces `first_char` to be set. -/
def from_chars_in_str (s : List Char) : Except String Alphabet :=
  if (finalMap s).length < 2 then
    Except.error "Invalid alphabet string. Found less than 2 unique chars"
  else
    Except.ok ⟨finalMap s, (scanState s).first_char.get!⟩

/-- `Alphabet::all_words` (src/lib.rs lines 164-170). -/
def Alphabet.all_words (a : Alphabet) (max_len : Option Nat) : WordsIterator :=
  ⟨a, max_len, [a.first_char]⟩

/-- `Alphabet::all_words_unbound` (src/lib.rs lines 182-188). -/
def Alphabet.all_words_unbound (a : Alphabet) : WordsIterator :=
  ⟨a, none, [a.first_char]⟩

/-- `Alphabet::all_words_starting_from` (src/lib.rs lines 221-231). -/
def Alphabet.all_words_starting_from (a : Alphabet) (start_word : List Char)
    (max_len : Option Nat) : WordsIterator :=
  ⟨a, max_len, start_word⟩

/-- `Alphabet::all_words_with_len` (src/lib.rs lines 258-264): seeded with
`start_len` copies of the first character. -/
def Alphabet.all_words_with_len (a : Alphabet) (start_len : Nat)
    (max_len : Option Nat) : WordsIterator :=
  ⟨a, max_len, List.replicate start_len a.first_char⟩

/-- The treatment of one character under carry in `WordsIterator::next`
(src/lib.rs lines 280-290): look the character up in the successor map with
`get(&c).unwrap_or(&None)`; a successor clears the carry, otherwise the
position wraps to `first_char` and the carry stays set. -/
def incDigit (a : Alphabet) (c : Char) : Char × Bool :=
  match (mapGet a.next_char_map c).getD none with
  | some nc => (nc, false)
  | none => (a.first_char, true)

/-- The successor computation of `WordsIterator::next` (src/lib.rs lines
276-299): scan the word right to left with a carry initialised to `true`,
rewriting carried positions with `incDigit` and copying the rest; a carry
left over after the leftmost position prepends a `first_char`. -/
def succWord (a : Alphabet) (w : List Char) : List Char :=
  let r := w.foldr
    (fun c acc =>
      if acc.2 then
        let d := incDigit a c
        (d.1 :: acc.1, d.2)
      else (c :: acc.1, acc.2))
    ([], true)
  if r.2 then a.first_char :: r.1 else r.1

/-- `WordsIterator::next` (src/lib.rs lines 270-303), in state-passing form:
returns the emitted item (or `none` once the pending word is too long) and
the updated iterator.  The guard compares `max_len` with the UTF-8 *byte*
length of the pending word, exactly as `self.next_item.len()` does in Rust. -/
def WordsIterator.next (it : WordsIterator) : Option (List Char) × WordsIterator :=
  if it.max_len.isSome && decide (it.max_len.get! < byteLen it.next_item) then
    (none, it)
  else
    (some it.next_item, { it with next_item := succWord it.alphabet it.next_item })

/-- `WordsIterator::next` with the `Option::unwrap` on `max_len` modelled as
a fallible operation (`none` = panic) instead of a total default: Rust only
calls `unwrap` behind the `is_some` short-circuit, and the character lookup
uses the panic-free `get(&c).unwrap_or(&None)`. -/
def nextChecked (it : WordsIterator) : Option (Option (List Char) × WordsIterator) :=
  let cond : Option Bool :=
    if it.max_len.isSome then
      it.max_len.map (fun m => decide (m < byteLen it.next_item))
    else some false
  match cond with
  | none => none
  | some true => some (none, it)
  | some false =>
    some (some it.next_item, { it with next_item := succWord it.alphabet it.next_item })

/-- Pull repeatedly, collecting emitted words until the iterator yields
nothing (Rust's `Iterator::collect`), with fuel to stay total. -/
def collectWords : WordsIterator → Nat → List (List Char)
  | _, 0 => []
  | it, n + 1 =>
    match WordsIterator.next it with
    | (none, _) => []
    | (some w, it') => w :: collectWords it' n

/-- The iterator state after `n` pulls. -/
def iterState (it : WordsIterator) : Nat → WordsIterator
  | 0 => it
  | n + 1 => (WordsIterator.next (iterState it n)).2

/-- The invariant of the construction scan: either nothing has been seen yet,
or the keys of the map together with the previous character are exactly the
distinct characters seen so far, without repetition, and the previous
character is not yet a key. -/
def ScanInv (seen : List Char) (st : BuildState) : Prop :=
  (st.first_char = none ∧ st.previous_char = none ∧
    st.next_char_map = [] ∧ seen = []) ∨
  (∃ f p, st.first_char = some f ∧ st.previous_char = some p ∧
    (keysOf st.next_char_map ++ [p]).Nodup ∧
    (∀ c, c ∈ keysOf st.next_char_map ++ [p] ↔ c ∈ seen))

/-- C1: for the alphabet built from `"abc"`, the generator `all_words (some 3)`
emits exactly the 39 words `a, b, c, aa, …, ccc` in this order and then yields
nothing: with fuel 100 the collection stops after 39 words, so the 40th pull
returned `none`. -/
theorem c1_odometer_words_abc :
    (from_chars_in_str "abc".data).map
        (fun a => (collectWords (a.all_words (some 3)) 100).map String.mk) =
      Except.ok ["a", "b", "c",
        "aa", "ab", "ac", "ba", "bb", "bc", "ca", "cb", "cc",
        "aaa", "aab", "aac", "aba", "abb", "abc", "aca", "acb", "acc",
        "baa", "bab", "bac", "bba", "bbb", "bbc", "bca", "bcb", "bcc",
        "caa", "cab", "cac", "cba", "cbb", "cbc", "cca", "ccb", "ccc"] := rfl

/-- C2 (divergence witness): for the alphabet of the two pictographic
characters U+1F600 and U+1F603 and `max_len = 1`, the pending word of the
fresh generator holds exactly 1 symbol — no more than `max_len` — yet the
very first pull already returns `none`, because `WordsIterator::next`
compares `max_len` against the UTF-8 byte length (4) of the pending word
rather than its symbol count. -/
theorem c2_bytelen_not_symbols :
    (from_chars_in_str [Char.ofNat 128512, Char.ofNat 128515]).map
        (fun a => ((a.all_words (some 1)).next_item.length,
          (WordsIterator.next (a.all_words (some 1))).1)) =
      Except.ok (1, none) := rfl

/-- C4: over the alphabet from `"01"`, `all_words_starting_from "011" (some 3)`
yields exactly `011, 100, 101, 110, 111`, and this equals `all_words (some 3)`
with every item before `"011"` dropped. -/
theorem c4_restart_equivalence :
    (from_chars_in_str "01".data).map
        (fun a =>
          ((collectWords (a.all_words_starting_from "011".data (some 3)) 100).map String.mk,
            ((collectWords (a.all_words (some 3)) 100).map String.mk).dropWhile
              (fun w => w != "011"))) =
      Except.ok (["011", "100", "101", "110", "111"],
        ["011", "100", "101", "110", "111"]) := rfl

/-- C6: construction collapses repeated runs: `"aaabbbcccddddebbbeeea"` gives
the very same alphabet as `"abcde"`, and `"aab"`, `"aaabbb"` and `"ab"` all
give the identical 2-symbol alphabet `a → b, b → none` with first symbol
`a`. -/
theorem c6_run_collapsing :
    from_chars_in_str "aaabbbcccddddebbbeeea".data = from_chars_in_str "abcde".data ∧
    from_chars_in_str "aab".data = from_chars_in_str "ab".data ∧
    from_chars_in_str "aaabbb".data = from_chars_in_str "ab".data ∧
    from_chars_in_str "ab".data =
      Except.ok ⟨[('a', some 'b'), ('b', none)], 'a'⟩ := ⟨rfl, rfl, rfl, rfl⟩

/-- C8: over the alphabet from `"01"`, `all_words_with_len 3 (some 3)` emits
exactly the 8 length-3 words `000 … 111` in order and nothing shorter. -/
theorem c8_length_floor :
    (from_chars_in_str "01".data).map
        (fun a => (collectWords (a.all_words_with_len 3 (some 3)) 100).map String.mk) =
      Except.ok ["000", "001", "010", "011", "100", "101", "110", "111"] := rfl

theorem mapGet_isSome_iff (m : List (Char × Option Char)) (c : Char) :
    (mapGet m c).isSome = true ↔ c ∈ keysOf m := by
  induction m with
  | nil => simp [mapGet, keysOf]
  | cons p t ih =>
    by_cases hp : p.1 = c
    · simp [mapGet, keysOf, List.find?_cons, hp]
    · have hb : (p.1 == c) = false := by simpa using hp
      simp only [mapGet, keysOf, List.find?_cons, hb, List.map_cons, List.mem_cons]
      rw [show (mapGet t c) = (t.find? (fun q => q.1 == c)).map (fun q => q.2) from rfl] at ih
      simp only [mapGet, keysOf] at ih
      rw [ih]
      constructor
      · exact fun h => Or.inr h
      · rintro (h | h)
        · exact absurd h.symm hp
        · exact h

theorem mapGet_eq_none_of_not_mem (m : List (Char × Option Char)) (c : Char)
    (h : c ∉ keysOf m) : mapGet m c = none := by
  cases hg : mapGet m c with
  | none => rfl
  | some v => exact absurd ((mapGet_isSome_iff m c).1 (by simp [hg])) h

theorem buildStep_inv (seen : List Char) (st : BuildState) (c : Char)
    (h : ScanInv seen st) : ScanInv (seen ++ [c]) (buildStep st c) := by
  rcases h with ⟨hf, hp, hm, hs⟩ | ⟨f, p, hf, hp, hnd, hmem⟩
  · right
    refine ⟨c, c, ?_, ?_, ?_, ?_⟩ <;>
      simp [buildStep, hf, hp, hm, hs, keysOf]
  · have hfne : st.first_char.isNone = false := by simp [hf]
    by_cases hpc : p = c
    · have hstep : buildStep st c = st := by
        simp [buildStep, hfne, hp, hpc]
      rw [hstep]
      right
      refine ⟨f, p, hf, hp, hnd, fun x => ?_⟩
      have hpseen : p ∈ seen := (hmem p).1 (by simp)
      simp only [List.mem_append, List.mem_singleton]
      constructor
      · intro hx
        exact Or.inl ((hmem x).1 (by simpa using hx))
      · rintro (hx | hx)
        · simpa using (hmem x).2 hx
        · subst hx; subst hpc; simp
    · by_cases hcon : mapContains st.next_char_map c = true
      · have hstep : buildStep st c = st := by
          simp [buildStep, hfne, hp, hpc, hcon]
        rw [hstep]
        right
        refine ⟨f, p, hf, hp, hnd, fun x => ?_⟩
        have hckey : c ∈ keysOf st.next_char_map := (mapGet_isSome_iff _ _).1 hcon
        simp only [List.mem_append, List.mem_singleton]
        constructor
        · intro hx
          exact Or.inl ((hmem x).1 (by simpa using hx))
        · rintro (hx | hx)
          · simpa using (hmem x).2 hx
          · subst hx; exact Or.inl hckey
      · have hpnotkey : p ∉ keysOf st.next_char_map := by
          have hdisj := (List.nodup_append.mp hnd).2.2
          intro hmemp
          exact hdisj hmemp (by simp)
        have hcnotkey : c ∉ keysOf st.next_char_map := by
          intro hmemc
          exact hcon ((mapGet_isSome_iff _ _).2 hmemc)
        have hinsp : mapContains st.next_char_map p = false := by
          simpa [mapContains] using
            Option.not_isSome_iff_eq_none.mpr (mapGet_eq_none_of_not_mem _ _ hpnotkey)
        have hins : mapInsert st.next_char_map p (some c) =
            st.next_char_map ++ [(p, some c)] := by
          simp [mapInsert, hinsp]
        have hstep : buildStep st c =
            ⟨st.next_char_map ++ [(p, some c)], some f, some c⟩ := by
          simp only [buildStep, hfne, Bool.false_eq_true, if_false, hp, hf]
          simp [hpc, hcon, hins, Ne.symm]
        rw [hstep]
        right
        have hkeys : keysOf (st.next_char_map ++ [(p, some c)]) =
            keysOf st.next_char_map ++ [p] := by
          simp [keysOf]
        refine ⟨f, c, rfl, rfl, ?_, fun x => ?_⟩
        · rw [hkeys, List.nodup_append]
          refine ⟨hnd, List.nodup_singleton c, fun x hx hxc => ?_⟩
          rw [List.mem_singleton] at hxc
          rcases List.mem_append.mp hx with hx' | hx'
          · exact hcnotkey (hxc ▸ hx')
          · have hxp : x = p := List.mem_singleton.mp hx'
            have : p = c := by rw [← hxp]; exact hxc
            exact hpc this
        · rw [hkeys]
          simp only [List.mem_append, List.mem_singleton]
          constructor
          · rintro ((hx | hx) | hx)
            · exact Or.inl ((hmem x).1 (List.mem_append.mpr (Or.inl hx)))
            · exact Or.inl ((hmem x).1 (by simp [hx]))
            · exact Or.inr hx
          · rintro (hx | hx)
            · rcases List.mem_append.mp ((hmem x).2 hx) with hx' | hx'
              · exact Or.inl (Or.inl hx')
              · exact Or.inl (Or.inr (by simpa using hx'))
            · exact Or.inr hx

theorem foldl_buildStep_inv (cs : List Char) :
    ∀ (seen : List Char) (st : BuildState), ScanInv seen st →
      ScanInv (seen ++ cs) (cs.foldl buildStep st) := by
  induction cs with
  | nil => intro seen st h; simpa using h
  | cons c cs ih =>
    intro seen st h
    rw [List.foldl_cons]
    have := ih (seen ++ [c]) (buildStep st c) (buildStep_inv seen st c h)
    simpa [List.append_assoc] using this

theorem scanInv_scanState (s : List Char) : ScanInv s (scanState s) := by
  have h0 : ScanInv [] (⟨[], none, none⟩ : BuildState) := Or.inl (by simp)
  simpa [scanState] using foldl_buildStep_inv s [] ⟨[], none, none⟩ h0

theorem finalMap_length (s : List Char) :
    (finalMap s).length = s.toFinset.card := by
  rcases scanInv_scanState s with ⟨hf, hp, hm, hs⟩ | ⟨f, p, hf, hp, hnd, hmem⟩
  · subst hs
    simp [finalMap, scanState]
  · have hpnotkey : p ∉ keysOf (scanState s).next_char_map := by
      have hdisj := (List.nodup_append.mp hnd).2.2
      intro hmemp
      exact hdisj hmemp (by simp)
    have hpcon : mapContains (scanState s).next_char_map p = false := by
      simpa [mapContains] using
        Option.not_isSome_iff_eq_none.mpr (mapGet_eq_none_of_not_mem _ _ hpnotkey)
    have hfin : finalMap s = (scanState s).next_char_map ++ [(p, none)] := by
      simp [finalMap, hp, hpcon]
    have hsetlist : (keysOf (scanState s).next_char_map ++ [p]).toFinset = s.toFinset := by
      ext x
      simp only [List.mem_toFinset]
      exact hmem x
    have hcard : (keysOf (scanState s).next_char_map ++ [p]).length = s.toFinset.card := by
      rw [← hsetlist, List.toFinset_card_of_nodup hnd]
    rw [hfin]
    simp only [keysOf, List.length_append, List.length_map, List.length_singleton] at hcard ⊢
    exact hcard

/-- C3: alphabet construction fails exactly on sources with fewer than 2
distinct characters, with the exact error message of src/lib.rs lines
129-131, and succeeds on every source with at least 2 distinct characters. -/
theorem c3_construction_rejection (s : List Char) :
    (s.toFinset.card < 2 →
      from_chars_in_str s =
        Except.error "Invalid alphabet string. Found less than 2 unique chars") ∧
    (2 ≤ s.toFinset.card → ∃ a, from_chars_in_str s = Except.ok a) := by
  constructor
  · intro h
    rw [from_chars_in_str, if_pos (by rw [finalMap_length]; exact h)]
  · intro h
    have hn : ¬ (finalMap s).length < 2 := by rw [finalMap_length]; omega
    rw [from_chars_in_str, if_neg hn]
    exact ⟨_, rfl⟩

/-- Witness for C3 at the spec's own examples: `"zzzzzzzzzz"` (1 distinct
character) is rejected with the exact message, `"ab"` is accepted. -/
theorem c3_construction_rejection_witness :
    from_chars_in_str "zzzzzzzzzz".data =
      Except.error "Invalid alphabet string. Found less than 2 unique chars" ∧
    ∃ a, from_chars_in_str "ab".data = Except.ok a :=
  ⟨(c3_construction_rejection "zzzzzzzzzz".data).1 (by decide),
    (c3_construction_rejection "ab".data).2 (by decide)⟩

/-- C5: a character absent from the successor map is treated by the pull's
successor computation exactly like the maximal symbol: its position becomes
`first_char` with the carry left set, it is indistinguishable from a
maximal character `cmax` (one mapped to `none`), and as the rightmost
position of any word the whole successor computation agrees with the one for
`cmax`.  All of this is by the total fallback `get(&c).unwrap_or(&None)` of
src/lib.rs line 280 — no error and no panic. -/
theorem c5_unknown_symbol_fallback (a : Alphabet) (c cmax : Char)
    (hc : mapContains a.next_char_map c = false)
    (hm : mapGet a.next_char_map cmax = some none) :
    incDigit a c = (a.first_char, true) ∧
    incDigit a c = incDigit a cmax ∧
    ∀ u : List Char, succWord a (u ++ [c]) = succWord a (u ++ [cmax]) := by
  have hgc : mapGet a.next_char_map c = none := by
    cases hg : mapGet a.next_char_map c with
    | none => rfl
    | some v => rw [mapContains, hg] at hc; simp at hc
  have h1 : incDigit a c = (a.first_char, true) := by
    simp [incDigit, hgc]
  have h2 : incDigit a cmax = (a.first_char, true) := by
    simp [incDigit, hm]
  refine ⟨h1, by rw [h1, h2], fun u => ?_⟩
  simp [succWord, List.foldr_append, h1, h2]

/-- Witness for C5: over the alphabet `a → b, b → none`, the out-of-alphabet
character `z` is treated exactly like the maximal character `b`. -/
theorem c5_unknown_symbol_fallback_witness :
    incDigit ⟨[('a', some 'b'), ('b', none)], 'a'⟩ 'z' = ('a', true) ∧
    succWord ⟨[('a', some 'b'), ('b', none)], 'a'⟩ ['a', 'z'] =
      succWord ⟨[('a', some 'b'), ('b', none)], 'a'⟩ ['a', 'b'] :=
  ⟨(c5_unknown_symbol_fallback ⟨[('a', some 'b'), ('b', none)], 'a'⟩ 'z' 'b'
      (by decide) (by decide)).1,
    (c5_unknown_symbol_fallback ⟨[('a', some 'b'), ('b', none)], 'a'⟩ 'z' 'b'
      (by decide) (by decide)).2.2 ['a']⟩

theorem next_of_returns_none (it : WordsIterator)
    (h : (WordsIterator.next it).1 = none) :
    WordsIterator.next it = (none, it) := by
  by_cases hc : (it.max_len.isSome && decide (it.max_len.get! < byteLen it.next_item)) = true
  · simp [WordsIterator.next, hc]
  · simp [WordsIterator.next, hc] at h

/-- C7: exhaustion is sticky: once a pull on a generator with `max_len` set
has returned `none`, the pending word was left unmodified (the early return
of src/lib.rs lines 271-273), so every later pull returns `none` as well. -/
theorem c7_sticky_exhaustion (it : WordsIterator)
    (_hml : it.max_len.isSome = true)
    (h : (WordsIterator.next it).1 = none) :
    (WordsIterator.next it).2 = it ∧
    ∀ n, (WordsIterator.next (iterState it n)).1 = none := by
  have hfix := next_of_returns_none it h
  refine ⟨by rw [hfix], fun n => ?_⟩
  have hstate : iterState it n = it := by
    induction n with
    | zero => rfl
    | succ k ih => simp [iterState, ih, hfix]
  rw [hstate, h]

/-- Witness for C7: a generator over `a → b, b → none` with `max_len = 0`
returns `none` at once, and still returns `none` after five more pulls. -/
theorem c7_sticky_exhaustion_witness :
    (WordsIterator.next
        (iterState ⟨⟨[('a', some 'b'), ('b', none)], 'a'⟩, some 0, ['a']⟩ 5)).1 =
      none :=
  (c7_sticky_exhaustion ⟨⟨[('a', some 'b'), ('b', none)], 'a'⟩, some 0, ['a']⟩
      (by decide) (by decide)).2 5

theorem nextChecked_eq_next (it : WordsIterator) :
    nextChecked it = some (WordsIterator.next it) := by
  cases hml : it.max_len with
  | none => simp [nextChecked, WordsIterator.next, hml]
  | some m =>
    by_cases hlt : m < byteLen it.next_item
    · simp [nextChecked, WordsIterator.next, hml, hlt, Option.get!]
    · simp [nextChecked, WordsIterator.next, hml, hlt, Option.get!]

/-- C9: for every alphabet returned by construction, a pull is total on every
pending word (empty or containing out-of-alphabet characters alike): the
version of `next` in which the `max_len` unwrap may fail always succeeds and
agrees with the total model, since the unwrap sits behind the `is_some`
short-circuit and the successor lookup defaults missing keys to `None`. -/
theorem c9_next_never_panics (s : List Char) (a : Alphabet) (w : List Char)
    (ml : Option Nat) (_h : from_chars_in_str s = Except.ok a) :
    nextChecked ⟨a, ml, w⟩ = some (WordsIterator.next ⟨a, ml, w⟩) :=
  nextChecked_eq_next ⟨a, ml, w⟩

/-- Witness for C9: the alphabet built from `"ab"`, pulled on the
out-of-alphabet pending word `z` with a bound set. -/
theorem c9_next_never_panics_witness :
    nextChecked ⟨⟨[('a', some 'b'), ('b', none)], 'a'⟩, some 3, ['z']⟩ =
      some (WordsIterator.next ⟨⟨[('a', some 'b'), ('b', none)], 'a'⟩, some 3, ['z']⟩) :=
  c9_next_never_panics "ab".data ⟨[('a', some 'b'), ('b', none)], 'a'⟩ ['z'] (some 3) rfl

/-- C10: a generator seeded with the empty word first emits the empty word —
for every `max_len`, since the byte length 0 never exceeds a set bound — and
its new pending word is the single `first_char` (the carry loop runs zero
times and the leftover carry prepends one `first_char`), so from then on the
generator is literally the `all_words` generator of the same alphabet and
bound. -/
theorem c10_empty_start_word (a : Alphabet) (ml : Option Nat) :
    WordsIterator.next (a.all_words_starting_from [] ml) =
      (some [], a.all_words ml) := by
  cases ml with
  | none => rfl
  | some m =>
    simp [WordsIterator.next, Alphabet.all_words_starting_from, Alphabet.all_words,
      byteLen, succWord, Option.get!]

/-- Witness for C10 at the alphabet `a → b, b → none` with bound 2. -/
theorem c10_empty_start_word_witness :
    WordsIterator.next
        ((Alphabet.mk [('a', some 'b'), ('b', none)] 'a').all_words_starting_from [] (some 2)) =
      (some [], (Alphabet.mk [('a', some 'b'), ('b', none)] 'a').all_words (some 2)) :=
  c10_empty_start_word ⟨[('a', some 'b'), ('b', none)], 'a'⟩ (some 2)
